import Mathlib

/-!
Verification of the ranking and evaluation logic of `src/tasks/codesearch.py`
(repository `martin-wey/CLCode-OOD-API`).

The file embeds the two functions of interest:

* `compute_ranks` — the distance-and-rank computation built from
  `scipy.spatial.distance.cdist`, `np.diag`, `np.expand_dims` and a
  broadcast comparison.  Matrices are lists of rows; the distance metric is
  a parameter (the repository's default is cosine distance, embedded below
  as `cosineDist` over the reals).  The Python call can raise
  (`cdist` rejects ragged input / mismatched column counts, and numpy
  broadcasting rejects incompatible shapes), so the embedding returns an
  `Option`: `none` exactly where the Python call raises.

* `test` — the MRR evaluation loop: chunking into batches of
  `cfg.run.test_batch_size`, discarding a final undersized chunk,
  per-batch sub-batching through a data loader of size
  `cfg.run.train_batch_size`, concatenation of per-sub-batch model
  outputs, an assertion on the concatenated lengths, `compute_ranks`, and
  the accumulated mean of reciprocal ranks.  The model, tokenizer and
  dataset pipeline are external collaborators (out of scope per the
  specification); they are abstracted into two per-row encoding functions
  and the already-tokenized list `data` of (code, query) pairs, mirroring
  the `data` array built in the source just before the loop.
-/

namespace Codesearch

/-- Embedding of `scipy.spatial.distance.cdist(src, tgt, metric)`: the full
pairwise matrix, entry (i, j) being `d` applied to row i of `src` and row j
of `tgt`. -/
def cdist {α β : Type} (d : List α → List α → β) (src tgt : List (List α)) :
    List (List β) :=
  src.map fun u => tgt.map fun v => d u v

/-- Shape validation performed by `cdist`: the rows of both arguments must
all share one common length (the column count).  `true` iff the Python call
does not raise on shapes. -/
def cdistOK {α : Type} (src tgt : List (List α)) : Bool :=
  (src ++ tgt).all fun r => r.length == ((src ++ tgt).headD []).length

/-- Entry (i, j) of a row-list matrix, with the `default` value out of
bounds (never relevant under the bounds hypotheses used below). -/
def matGet {β : Type} [Inhabited β] (m : List (List β)) (i j : ℕ) : β :=
  (m.getD i []).getD j default

/-- Embedding of `compute_ranks` from `src/tasks/codesearch.py`:

```python
distances = cdist(src_representations, tgt_representations, metric=distance_metric)
correct_elements = np.expand_dims(np.diag(distances), axis=-1)
return np.sum(distances <= correct_elements, axis=-1), distances
```

With `M = len(src)`, `N = len(tgt)`, `distances` is M×N, `np.diag` takes the
`K = min M N` entries `distances[i][i]`, and the comparison broadcasts the
K×1 column against the M×N matrix.  Numpy accepts the broadcast iff
`K = M ∨ K = 1 ∨ M = 1`; the number of result rows is then `M` when
`K = M` or `K = 1`, and `K` when `M = 1`; a row is compared against
`correct_elements[0]` when `K = 1` and matrix row 0 is reused when `M = 1`
(broadcasting of a size-one axis).  `np.sum` over a boolean row counts the
`True` entries.  `none` models the Python exceptions (shape validation in
`cdist`, or broadcast failure). -/
def compute_ranks {α β : Type} [LinearOrder β] [Inhabited β]
    (d : List α → List α → β) (src tgt : List (List α)) :
    Option (List ℕ × List (List β)) :=
  if cdistOK src tgt then
    let distances := cdist d src tgt
    let M := src.length
    let K := min M tgt.length
    if K = M ∨ K = 1 ∨ M = 1 then
      let R := if K = M then M else if K = 1 then M else K
      some (((List.range R).map fun i =>
        let c := (distances.getD (if K = 1 then 0 else i) []).getD
          (if K = 1 then 0 else i) default
        (distances.getD (if M = 1 then 0 else i) []).countP fun x =>
          decide (x ≤ c)), distances)
    else none
  else none

/-- Squared euclidean distance on rational rows: the `sqeuclidean` metric
name accepted by `cdist`, used to instantiate the generic theorems on
concrete inputs. -/
def sqeuclidean (u v : List ℤ) : ℤ :=
  ((u.zip v).map fun p => (p.1 - p.2) * (p.1 - p.2)).sum

/-- Dot product of two real rows (`np.dot` of equal-length vectors). -/
def dotProd (u v : List ℝ) : ℝ :=
  ((u.zip v).map fun p => p.1 * p.2).sum

/-- Embedding of scipy's `cosine` metric, the repository's default
`distance_metric`: `1 - u·v / (‖u‖₂ ‖v‖₂)`.  Real square roots are not
computable, hence the `noncomputable` marker.  For vectors with zero norm
scipy produces a 0/0 (NaN); this real-valued embedding renders that case
with the division-by-zero convention `x / 0 = 0` and is therefore only
used where no NaN reaches a comparison — where the NaN behaviour is
load-bearing, the `Option`-valued `cosineDistF` below (with `none` as
NaN) and the IEEE comparison `fle` are used instead. -/
noncomputable def cosineDist (u v : List ℝ) : ℝ :=
  1 - dotProd u v / (Real.sqrt (dotProd u u) * Real.sqrt (dotProd v v))

/-- IEEE floating-point comparison on distance values modelled as
`Option ℝ`, with `none` playing NaN: `x <= y` is false whenever either
side is NaN, which in particular breaks the reflexivity
`NaN <= NaN = False` that numpy's `distances <= correct_elements`
comparison inherits. -/
noncomputable def fle (x y : Option ℝ) : Bool :=
  match x, y with
  | some a, some b => decide (a ≤ b)
  | _, _ => false

/-- scipy's `cosine` metric with its NaN behaviour kept: on a zero-norm
argument the formula divides 0 by 0 and yields NaN (`none`); otherwise
the real value `cosineDist`. -/
noncomputable def cosineDistF (u v : List ℝ) : Option ℝ :=
  if dotProd u u = 0 ∨ dotProd v v = 0 then none
  else some (cosineDist u v)

/-- The `compute_ranks` computation under IEEE floating-point comparison
semantics: the same `cdist` / `np.diag` / broadcast structure as
`compute_ranks` above, but distance values are `Option ℝ` with `none` as
NaN and the boolean comparison `distances <= correct_elements` is `fle`
(false on NaN), exactly as numpy compares float64 values.  This variant
is the faithful embedding wherever a NaN can reach the comparison; on
NaN-free values `fle` coincides with the total order used by
`compute_ranks`. -/
noncomputable def compute_ranksF (d : List ℝ → List ℝ → Option ℝ)
    (src tgt : List (List ℝ)) : Option (List ℕ × List (List (Option ℝ))) :=
  if cdistOK src tgt then
    let distances := cdist d src tgt
    let M := src.length
    let K := min M tgt.length
    if K = M ∨ K = 1 ∨ M = 1 then
      let R := if K = M then M else if K = 1 then M else K
      some (((List.range R).map fun i =>
        let c := (distances.getD (if K = 1 then 0 else i) []).getD
          (if K = 1 then 0 else i) none
        (distances.getD (if M = 1 then 0 else i) []).countP fun x =>
          fle x c), distances)
    else none
  else none


/-- Consecutive chunks of size `n`, as produced by `more_itertools.chunked`
over the data array and by the `DataLoader` mini-batching inside a batch:
every chunk has length `n` except possibly a shorter last one.  `chunked`
with `n = 0` yields no chunks at all (its `take(0, ...)` immediately
returns the stop sentinel), so the embedding returns `[]` in that case. -/
def chunksOf {γ : Type} (n : ℕ) (l : List γ) : List (List γ) :=
  if h : n = 0 ∨ l.length = 0 then []
  else l.take n :: chunksOf n (l.drop n)
termination_by l.length
decreasing_by
  push_neg at h
  simp only [List.length_drop]
  omega

/-- Configuration fields of `cfg.run` consumed by the evaluation loop of
`test`. -/
structure Cfg where
  test_batch_size : ℕ
  train_batch_size : ℕ

/-- Python's `round(x, 4)` from the final log line `Test MRR: ...`,
modelled as exact rounding of a real number to 4 decimal places. -/
noncomputable def round4 (x : ℝ) : ℝ :=
  (round (x * 10000) : ℤ) / 10000

/-- Concatenated per-sub-batch model outputs for one batch of `test`: the
rows are loaded in sub-batches of `tb = cfg.run.train_batch_size`
(`DataLoader` keeps a shorter final sub-batch), the model produces one
representation row per input row (`enc`), and the per-sub-batch outputs
are concatenated with `np.concatenate(..., axis=0)`. -/
def batchReps {τ : Type} (tb : ℕ) (enc : τ → List ℝ) (rows : List τ) :
    List (List ℝ) :=
  ((chunksOf tb rows).map fun mb => mb.map enc).flatten

/-- Body of the evaluation loop of `test` for one (full) batch: compute
and concatenate the code and query representations, check the assertion
`len(code_representations) == len(query_representations) ==
cfg.run.test_batch_size` (`none` models the `AssertionError`), rank with
`compute_ranks` under its default cosine metric, and return
`np.mean(1.0 / ranks)` (a sum divided by the number of ranks).  `none`
also models an exception escaping `compute_ranks`. -/
noncomputable def batchMRR {τ : Type} (cfg : Cfg) (encC encQ : τ → List ℝ)
    (batch : List (τ × τ)) : Option ℝ :=
  let codeReps := batchReps cfg.train_batch_size encC (batch.map Prod.fst)
  let queryReps := batchReps cfg.train_batch_size encQ (batch.map Prod.snd)
  if codeReps.length = queryReps.length ∧
      queryReps.length = cfg.test_batch_size then
    match compute_ranks cosineDist codeReps queryReps with
    | some (ranks, _) =>
        some ((ranks.map fun r => (1 : ℝ) / r).sum / ranks.length)
    | none => none
  else none

/-- Embedding of `test` from `src/tasks/codesearch.py`, from the point
where the tokenized, shuffled `data` array of (code, query) token-row
pairs has been built (tokenizer, model and dataset pipeline are external
collaborators; `encC` and `encQ` give the model's pooled output row for a
code or query input row).  It chunks `data` into batches of
`cfg.run.test_batch_size`, stops at the first undersized batch, runs the
loop body on each full batch accumulating `sum_mrr` over `num_batches`
batches, and returns the value logged as `Test MRR: <value>`, namely
`round(sum_mrr / num_batches, 4)`.  `none` models an uncaught exception:
a failing batch, or the `ZeroDivisionError` in `sum_mrr / num_batches`
when no batch completed. -/
noncomputable def test {τ : Type} (cfg : Cfg) (encC encQ : τ → List ℝ)
    (data : List (τ × τ)) : Option ℝ :=
  let batches := (chunksOf cfg.test_batch_size data).takeWhile
    fun b => decide (cfg.test_batch_size ≤ b.length)
  match batches.mapM (batchMRR cfg encC encQ) with
  | some vals =>
      if vals.length = 0 then none
      else some (round4 (vals.sum / vals.length))
  | none => none

/-- Modelled from the specification's description of the logged value (the
reference side of C2, stated from the claim's words rather than from the
code): the dataset is split into consecutive chunks of `B` items — chunk k
is `data[k*B : (k+1)*B]`, and there are `len(data) / B` full chunks, any
smaller final chunk discarded — and the value is the arithmetic mean over
the full batches of the per-batch mean of `1/rank`, the ranks coming from
`compute_ranks` on that batch's per-row code and query embeddings, rounded
to 4 decimals.  With zero full batches no value exists (`none`). -/
noncomputable def specTestMRR {τ : Type} (B : ℕ) (encC encQ : τ → List ℝ)
    (data : List (τ × τ)) : Option ℝ :=
  let F := data.length / B
  let vals := (List.range F).map fun k =>
    match compute_ranks cosineDist
        (((data.drop (k * B)).take B).map fun p => encC p.1)
        (((data.drop (k * B)).take B).map fun p => encQ p.2) with
    | some (ranks, _) => (ranks.map fun r => (1 : ℝ) / r).sum / ranks.length
    | none => 0
  if F = 0 then none else some (round4 (vals.sum / F))

/-- A `countP` over a list is the sum, over positions, of the indicator of
the predicate at that position. -/
theorem countP_eq_sum_range {γ : Type} (p : γ → Bool) (d₀ : γ) (l : List γ) :
    l.countP p = ∑ j in Finset.range l.length,
      if p (l.getD j d₀) then 1 else 0 := by
  induction l with
  | nil => simp
  | cons x xs ih =>
    rw [List.countP_cons, List.length_cons, Finset.sum_range_succ']
    simp only [List.getD_cons_succ, List.getD_cons_zero]
    rw [ih]

/-- `cdist` accepts two matrices whose rows all have the common length `D`. -/
theorem cdistOK_of_cols {α : Type} (src tgt : List (List α)) (D : ℕ)
    (hs : ∀ r ∈ src, r.length = D) (ht : ∀ r ∈ tgt, r.length = D) :
    cdistOK src tgt = true := by
  have hall : ∀ r ∈ src ++ tgt, r.length = D := by
    intro r hr
    rcases List.mem_append.mp hr with h | h
    · exact hs r h
    · exact ht r h
  rw [cdistOK, List.all_eq_true]
  intro r hr
  have h1 : r.length = D := hall r hr
  have h2 : ((src ++ tgt).headD []).length = D := by
    cases h : src ++ tgt with
    | nil => rw [h] at hr; simp at hr
    | cons a as =>
      have ha : a ∈ src ++ tgt := by rw [h]; exact List.mem_cons_self a as
      simpa [h] using hall a ha
  rw [beq_iff_eq, h1, h2]

/-- Row `i` of the pairwise distance matrix, for `i` in bounds. -/
theorem cdist_row {α β : Type} (d : List α → List α → β)
    (src tgt : List (List α)) (i : ℕ) (hi : i < src.length) :
    (cdist d src tgt).getD i [] = tgt.map fun v => d (src.getD i []) v := by
  have hi' : i < (cdist d src tgt).length := by simpa [cdist] using hi
  rw [List.getD_eq_getElem _ _ hi', List.getD_eq_getElem _ _ hi]
  simp [cdist]

/-- Normal form of `compute_ranks` in the regime `len(src) ≤ len(tgt)`
(which covers the square case used by the evaluation loop): the diagonal
has one entry per source row, the broadcast succeeds, and row `i` of the
result counts the entries of distance row `i` that are at most the
diagonal entry `distances[i][i]`. -/
theorem compute_ranks_eq_of_le {α β : Type} [LinearOrder β] [Inhabited β]
    (d : List α → List α → β) (src tgt : List (List α))
    (hok : cdistOK src tgt = true) (hMN : src.length ≤ tgt.length) :
    compute_ranks d src tgt = some
      ((List.range src.length).map fun i =>
        ((cdist d src tgt).getD i []).countP fun x =>
          decide (x ≤ ((cdist d src tgt).getD i []).getD i default),
       cdist d src tgt) := by
  have hK : min src.length tgt.length = src.length := min_eq_left hMN
  rw [compute_ranks]
  simp only [hok, if_true, hK, true_or, eq_self_iff_true, or_true, if_pos]
  congr 2
  apply List.map_congr_left
  intro i hi
  rw [List.mem_range] at hi
  by_cases h1 : src.length = 1
  · have hi0 : i = 0 := by omega
    subst hi0
    simp [h1]
  · simp [h1]

/-- Entry (i, j) of the pairwise distance matrix is the metric applied to
row i of `src` and row j of `tgt`. -/
theorem matGet_cdist {α β : Type} [Inhabited β] (d : List α → List α → β)
    (src tgt : List (List α)) (i j : ℕ)
    (hi : i < src.length) (hj : j < tgt.length) :
    matGet (cdist d src tgt) i j = d (src.getD i []) (tgt.getD j []) := by
  rw [matGet, cdist_row d src tgt i hi,
    List.getD_eq_getElem _ _ (by simpa using hj), List.getElem_map,
    List.getD_eq_getElem _ _ hj]

/-- Entry `i` of the rank list produced in the `len(src) ≤ len(tgt)` regime,
as a sum of indicators over the columns. -/
theorem rank_entry_sum {α β : Type} [LinearOrder β] [Inhabited β]
    (d : List α → List α → β) (src tgt : List (List α))
    (i : ℕ) (hi : i < src.length) :
    (((List.range src.length).map fun i =>
        ((cdist d src tgt).getD i []).countP fun x =>
          decide (x ≤ ((cdist d src tgt).getD i []).getD i default)).getD i 0)
      = ∑ j in Finset.range tgt.length,
          if matGet (cdist d src tgt) i j ≤ matGet (cdist d src tgt) i i
          then 1 else 0 := by
  rw [List.getD_eq_getElem _ _ (by simpa using hi), List.getElem_map,
    List.getElem_range]
  have hrow : ((cdist d src tgt).getD i []).length = tgt.length := by
    rw [cdist_row d src tgt i hi, List.length_map]
  rw [countP_eq_sum_range _ default, hrow]
  apply Finset.sum_congr rfl
  intro j hj
  simp only [matGet, decide_eq_true_eq]

/-- A `countP` over `List.range N` counts the indices below `N` satisfying
the predicate. -/
theorem countP_range (q : ℕ → Bool) (N : ℕ) :
    (List.range N).countP q = ∑ j in Finset.range N, if q j then 1 else 0 := by
  rw [countP_eq_sum_range q 0, List.length_range]
  apply Finset.sum_congr rfl
  intro j hj
  rw [List.getD_eq_getElem _ _ (by simpa using Finset.mem_range.mp hj),
    List.getElem_range]


/-- C1: for every pair of matrices `src` and `tgt` with equal row count N
and equal column count D, `compute_ranks` returns `(ranks, distances)`
where `distances` is the full N×N pairwise distance matrix under the
metric, and for each row i, `ranks[i]` is the count of indices j in [0,N)
with `distances[i][j] ≤ distances[i][i]`, ties (and the diagonal entry
itself) counted inclusively. -/
theorem C1_full_matrix_and_inclusive_counts {α β : Type}
    [LinearOrder β] [Inhabited β]
    (d : List α → List α → β) (src tgt : List (List α)) (N D : ℕ)
    (hsl : src.length = N) (htl : tgt.length = N)
    (hsc : ∀ r ∈ src, r.length = D) (htc : ∀ r ∈ tgt, r.length = D) :
    ∃ ranks distances,
      compute_ranks d src tgt = some (ranks, distances) ∧
      distances.length = N ∧
      (∀ i, i < N → (distances.getD i []).length = N) ∧
      (∀ i, i < N → ∀ j, j < N →
        matGet distances i j = d (src.getD i []) (tgt.getD j [])) ∧
      ranks.length = N ∧
      (∀ i, i < N → ranks.getD i 0 =
        (List.range N).countP fun j =>
          decide (matGet distances i j ≤ matGet distances i i)) := by
  have hok := cdistOK_of_cols src tgt D hsc htc
  have hle : src.length ≤ tgt.length := by omega
  refine ⟨_, _, compute_ranks_eq_of_le d src tgt hok hle, ?_, ?_, ?_, ?_, ?_⟩
  · simp [cdist, hsl]
  · intro i hi
    rw [cdist_row d src tgt i (by omega)]
    simp [htl]
  · intro i hi j hj
    exact matGet_cdist d src tgt i j (by omega) (by omega)
  · simp [hsl]
  · intro i hi
    rw [rank_entry_sum d src tgt i (by omega), htl, countP_range]
    apply Finset.sum_congr rfl
    intro j hj
    simp

/-- Witness for C1: concrete 2×1 matrices with the sqeuclidean metric. -/
theorem C1_witness :
    (([[(1 : ℤ)], [2]] : List (List ℤ)).length = 2 ∧
      (∀ r ∈ ([[(1 : ℤ)], [2]] : List (List ℤ)), r.length = 1)) ∧
    (∃ ranks distances,
      compute_ranks sqeuclidean [[(1 : ℤ)], [2]] [[(1 : ℤ)], [2]] =
        some (ranks, distances) ∧
      distances.length = 2 ∧
      (∀ i, i < 2 → (distances.getD i []).length = 2) ∧
      (∀ i, i < 2 → ∀ j, j < 2 →
        matGet distances i j =
          sqeuclidean (([[(1 : ℤ)], [2]] : List (List ℤ)).getD i [])
            (([[(1 : ℤ)], [2]] : List (List ℤ)).getD j [])) ∧
      ranks.length = 2 ∧
      (∀ i, i < 2 → ranks.getD i 0 =
        (List.range 2).countP fun j =>
          decide (matGet distances i j ≤ matGet distances i i))) :=
  ⟨⟨by decide, by decide⟩,
    C1_full_matrix_and_inclusive_counts sqeuclidean [[(1 : ℤ)], [2]]
      [[(1 : ℤ)], [2]] 2 1 (by decide) (by decide) (by decide) (by decide)⟩

/-- C5: for equal-shape matrices whose distance matrix has a strictly
minimal diagonal per row (`distances[i][j] > distances[i][i]` for all
`j ≠ i`), every rank entry equals 1. -/
theorem C5_strict_diagonal_gives_rank_one {α β : Type}
    [LinearOrder β] [Inhabited β]
    (d : List α → List α → β) (src tgt : List (List α)) (N D : ℕ)
    (hsl : src.length = N) (htl : tgt.length = N)
    (hsc : ∀ r ∈ src, r.length = D) (htc : ∀ r ∈ tgt, r.length = D)
    (hdiag : ∀ i, i < N → ∀ j, j < N → j ≠ i →
      matGet (cdist d src tgt) i i < matGet (cdist d src tgt) i j) :
    ∃ ranks distances,
      compute_ranks d src tgt = some (ranks, distances) ∧
      ranks.length = N ∧
      (∀ i, i < N → ranks.getD i 0 = 1) := by
  have hok := cdistOK_of_cols src tgt D hsc htc
  have hle : src.length ≤ tgt.length := by omega
  refine ⟨_, _, compute_ranks_eq_of_le d src tgt hok hle, by simp [hsl], ?_⟩
  intro i hi
  rw [rank_entry_sum d src tgt i (by omega)]
  rw [Finset.sum_eq_single_of_mem i (by rw [Finset.mem_range]; omega)]
  · simp
  · intro j hj hne
    rw [Finset.mem_range] at hj
    rw [if_neg]
    exact not_le.mpr (hdiag i (by omega) j (by omega) hne)

/-- Witness for C5: 2×1 matrices with strictly minimal diagonal. -/
theorem C5_witness :
    (∀ i, i < 2 → ∀ j, j < 2 → j ≠ i →
      matGet (cdist sqeuclidean [[(1 : ℤ)], [4]] [[(1 : ℤ)], [4]]) i i <
        matGet (cdist sqeuclidean [[(1 : ℤ)], [4]] [[(1 : ℤ)], [4]]) i j) ∧
    (∃ ranks distances,
      compute_ranks sqeuclidean [[(1 : ℤ)], [4]] [[(1 : ℤ)], [4]] =
        some (ranks, distances) ∧
      ranks.length = 2 ∧
      (∀ i, i < 2 → ranks.getD i 0 = 1)) :=
  ⟨by decide,
    C5_strict_diagonal_gives_rank_one sqeuclidean [[(1 : ℤ)], [4]]
      [[(1 : ℤ)], [4]] 2 1 (by decide) (by decide) (by decide) (by decide)
      (by decide)⟩

/-- C6: for equal-shape matrices whose pairwise distance matrix has all
entries equal, every rank entry equals N. -/
theorem C6_equidistant_gives_rank_N {α β : Type} [LinearOrder β] [Inhabited β]
    (d : List α → List α → β) (src tgt : List (List α)) (N D : ℕ)
    (hsl : src.length = N) (htl : tgt.length = N)
    (hsc : ∀ r ∈ src, r.length = D) (htc : ∀ r ∈ tgt, r.length = D)
    (hconst : ∀ i, i < N → ∀ j, j < N → ∀ k, k < N → ∀ l, l < N →
      matGet (cdist d src tgt) i j = matGet (cdist d src tgt) k l) :
    ∃ ranks distances,
      compute_ranks d src tgt = some (ranks, distances) ∧
      ranks.length = N ∧
      (∀ i, i < N → ranks.getD i 0 = N) := by
  have hok := cdistOK_of_cols src tgt D hsc htc
  have hle : src.length ≤ tgt.length := by omega
  refine ⟨_, _, compute_ranks_eq_of_le d src tgt hok hle, by simp [hsl], ?_⟩
  intro i hi
  rw [rank_entry_sum d src tgt i (by omega)]
  have hone : ∀ j ∈ Finset.range tgt.length,
      (if matGet (cdist d src tgt) i j ≤ matGet (cdist d src tgt) i i
       then 1 else 0) = 1 := by
    intro j hj
    rw [Finset.mem_range] at hj
    rw [hconst i (by omega) j (by omega) i (by omega) i (by omega),
      if_pos le_rfl]
  rw [Finset.sum_congr rfl hone]
  simp [htl]

/-- Witness for C6: two identical rows, all pairwise distances 0. -/
theorem C6_witness :
    (∀ i, i < 2 → ∀ j, j < 2 → ∀ k, k < 2 → ∀ l, l < 2 →
      matGet (cdist sqeuclidean [[(5 : ℤ)], [5]] [[(5 : ℤ)], [5]]) i j =
        matGet (cdist sqeuclidean [[(5 : ℤ)], [5]] [[(5 : ℤ)], [5]]) k l) ∧
    (∃ ranks distances,
      compute_ranks sqeuclidean [[(5 : ℤ)], [5]] [[(5 : ℤ)], [5]] =
        some (ranks, distances) ∧
      ranks.length = 2 ∧
      (∀ i, i < 2 → ranks.getD i 0 = 2)) :=
  ⟨by decide,
    C6_equidistant_gives_rank_N sqeuclidean [[(5 : ℤ)], [5]] [[(5 : ℤ)], [5]]
      2 1 (by decide) (by decide) (by decide) (by decide) (by decide)⟩

/-- C10: for `src` with M rows and `tgt` with N rows sharing the column
count, with M < N, `compute_ranks` raises no error: it returns M ranks,
`ranks[i]` counting every j in [0,N) with
`distances[i][j] ≤ distances[i][i]`. -/
theorem C10_fewer_source_rows_accepted {α β : Type}
    [LinearOrder β] [Inhabited β]
    (d : List α → List α → β) (src tgt : List (List α)) (D : ℕ)
    (hMN : src.length < tgt.length)
    (hsc : ∀ r ∈ src, r.length = D) (htc : ∀ r ∈ tgt, r.length = D) :
    ∃ ranks distances,
      compute_ranks d src tgt = some (ranks, distances) ∧
      ranks.length = src.length ∧
      (∀ i, i < src.length → ranks.getD i 0 =
        (List.range tgt.length).countP fun j =>
          decide (matGet distances i j ≤ matGet distances i i)) := by
  have hok := cdistOK_of_cols src tgt D hsc htc
  refine ⟨_, _, compute_ranks_eq_of_le d src tgt hok (le_of_lt hMN),
    by simp, ?_⟩
  intro i hi
  rw [rank_entry_sum d src tgt i hi, countP_range]
  apply Finset.sum_congr rfl
  intro j hj
  simp

/-- Witness for C10: one source row against two target rows. -/
theorem C10_witness :
    (([[(1 : ℤ)]] : List (List ℤ)).length <
        ([[(1 : ℤ)], [2]] : List (List ℤ)).length) ∧
    (∃ ranks distances,
      compute_ranks sqeuclidean [[(1 : ℤ)]] [[(1 : ℤ)], [2]] =
        some (ranks, distances) ∧
      ranks.length = ([[(1 : ℤ)]] : List (List ℤ)).length ∧
      (∀ i, i < ([[(1 : ℤ)]] : List (List ℤ)).length → ranks.getD i 0 =
        (List.range ([[(1 : ℤ)], [2]] : List (List ℤ)).length).countP fun j =>
          decide (matGet distances i j ≤ matGet distances i i))) :=
  ⟨by decide,
    C10_fewer_source_rows_accepted sqeuclidean [[(1 : ℤ)]] [[(1 : ℤ)], [2]]
      1 (by decide) (by decide) (by decide)⟩


theorem dotProd_cons (x y : ℝ) (xs ys : List ℝ) :
    dotProd (x :: xs) (y :: ys) = x * y + dotProd xs ys := by
  simp [dotProd]

theorem dotProd_self_nonneg (v : List ℝ) : 0 ≤ dotProd v v := by
  induction v with
  | nil => simp [dotProd]
  | cons x xs ih =>
    rw [dotProd_cons]
    have hx : 0 ≤ x * x := mul_self_nonneg x
    linarith

theorem dotProd_self_pos (v : List ℝ) (hv : ∃ x ∈ v, x ≠ 0) :
    0 < dotProd v v := by
  induction v with
  | nil => simp at hv
  | cons x xs ih =>
    rw [dotProd_cons]
    rcases hv with ⟨y, hy, hy0⟩
    rcases List.mem_cons.mp hy with rfl | hmem
    · have h1 : 0 < y * y := mul_self_pos.mpr hy0
      have h2 : 0 ≤ dotProd xs xs := dotProd_self_nonneg xs
      linarith
    · have h1 : 0 < dotProd xs xs := ih ⟨y, hmem, hy0⟩
      have h2 : 0 ≤ x * x := mul_self_nonneg x
      linarith

/-- Cosine distance of a vector with itself is 0, provided the vector has a
nonzero coordinate (so that its norm does not vanish). -/
theorem cosineDist_self (v : List ℝ) (hv : ∃ x ∈ v, x ≠ 0) :
    cosineDist v v = 0 := by
  have hpos := dotProd_self_pos v hv
  rw [cosineDist, Real.mul_self_sqrt (le_of_lt hpos),
    div_self (ne_of_gt hpos), sub_self]

theorem cosineDist_orth : cosineDist [(1 : ℝ), 0] [(0 : ℝ), 1] = 1 := by
  have h : dotProd [(1 : ℝ), 0] [(0 : ℝ), 1] = 0 := by
    norm_num [dotProd]
  rw [cosineDist, h, zero_div, sub_zero]

/-- The concrete mismatched-shape call of C4, fully evaluated: one source
row against two target rows, default cosine metric. -/
theorem compute_ranks_mismatched_example :
    compute_ranks cosineDist [[(1 : ℝ), 0]] [[(1 : ℝ), 0], [(0 : ℝ), 1]] =
      some ([1], [[0, 1]]) := by
  have h0 : cosineDist [(1 : ℝ), 0] [(1 : ℝ), 0] = 0 :=
    cosineDist_self _ ⟨1, by simp, one_ne_zero⟩
  rw [compute_ranks_eq_of_le cosineDist [[(1 : ℝ), 0]]
    [[(1 : ℝ), 0], [(0 : ℝ), 1]] rfl (by simp)]
  simp only [cdist, List.map_cons, List.map_nil, h0, cosineDist_orth]
  simp [List.range_succ, List.countP_cons, decide_eq_true_eq]

/-- Counterexample to C4 as stated: the mismatched-shape call
`compute_ranks([[1,0]], [[1,0],[0,1]])` does not fail with a runtime
error — numpy broadcasting accepts the length-1 diagonal against the 1×2
distance matrix and a result is returned. -/
theorem C4_counterexample :
    ∃ result, compute_ranks cosineDist [[(1 : ℝ), 0]]
      [[(1 : ℝ), 0], [(0 : ℝ), 1]] = some result :=
  ⟨([1], [[0, 1]]), compute_ranks_mismatched_example⟩

/-- C4 (amended): for src=[[1,0]] (1 row) and tgt=[[1,0],[0,1]] (2 rows),
compute_ranks raises no error: np.diag of the 1×2 distance matrix has a
single entry, it broadcasts against the matrix, and the call returns
ranks=[1] (the source row ranked against both target rows) and
distances=[[0,1]]. -/
theorem C4_amended_mismatched_shapes_accepted :
    compute_ranks cosineDist [[(1 : ℝ), 0]] [[(1 : ℝ), 0], [(0 : ℝ), 1]] =
      some ([1], [[0, 1]]) :=
  compute_ranks_mismatched_example

/-- C7 (amended): the diagonal of the distances matrix equals the
per-item self-distance `d(src_i, tgt_i)` for every metric, and for the
default cosine metric the diagonal entry is 0 whenever `src_i` and `tgt_i`
are identical vectors with a nonzero coordinate (for the all-zero vector
the 0/0 in the cosine formula yields NaN in scipy, not 0). -/
theorem C7_amended_diagonal_self_distance (d : List ℝ → List ℝ → ℝ)
    (src tgt : List (List ℝ)) (N D : ℕ)
    (hsl : src.length = N) (htl : tgt.length = N)
    (hsc : ∀ r ∈ src, r.length = D) (htc : ∀ r ∈ tgt, r.length = D) :
    (∃ ranks distances,
      compute_ranks d src tgt = some (ranks, distances) ∧
      ∀ i, i < N → matGet distances i i = d (src.getD i []) (tgt.getD i [])) ∧
    (∃ ranks distances,
      compute_ranks cosineDist src tgt = some (ranks, distances) ∧
      ∀ i, i < N → src.getD i [] = tgt.getD i [] →
        (∃ x ∈ src.getD i [], x ≠ 0) → matGet distances i i = 0) := by
  have hok := cdistOK_of_cols src tgt D hsc htc
  have hle : src.length ≤ tgt.length := by omega
  constructor
  · refine ⟨_, _, compute_ranks_eq_of_le d src tgt hok hle, ?_⟩
    intro i hi
    exact matGet_cdist d src tgt i i (by omega) (by omega)
  · refine ⟨_, _, compute_ranks_eq_of_le cosineDist src tgt hok hle, ?_⟩
    intro i hi heq hnz
    rw [matGet_cdist cosineDist src tgt i i (by omega) (by omega), heq]
    exact cosineDist_self _ (heq ▸ hnz)

/-- Witness for the amended C7: identical nonzero 1×2 matrices. -/
theorem C7_witness :
    (([[(1 : ℝ), 0]] : List (List ℝ)).length = 1 ∧
      (∀ r ∈ ([[(1 : ℝ), 0]] : List (List ℝ)), r.length = 2)) ∧
    ((∃ ranks distances,
      compute_ranks cosineDist [[(1 : ℝ), 0]] [[(1 : ℝ), 0]] =
        some (ranks, distances) ∧
      ∀ i, i < 1 → matGet distances i i =
        cosineDist (([[(1 : ℝ), 0]] : List (List ℝ)).getD i [])
          (([[(1 : ℝ), 0]] : List (List ℝ)).getD i [])) ∧
    (∃ ranks distances,
      compute_ranks cosineDist [[(1 : ℝ), 0]] [[(1 : ℝ), 0]] =
        some (ranks, distances) ∧
      ∀ i, i < 1 →
        ([[(1 : ℝ), 0]] : List (List ℝ)).getD i [] =
          ([[(1 : ℝ), 0]] : List (List ℝ)).getD i [] →
        (∃ x ∈ ([[(1 : ℝ), 0]] : List (List ℝ)).getD i [], x ≠ 0) →
        matGet distances i i = 0)) :=
  ⟨⟨by simp, by simp⟩,
    C7_amended_diagonal_self_distance cosineDist [[(1 : ℝ), 0]]
      [[(1 : ℝ), 0]] 1 2 (by simp) (by simp) (by simp) (by simp)⟩

/-- Counterexample to C7 as stated: for the identical all-zero vectors
src = tgt = [[0]], the cosine diagonal entry is not 0.  (At this input
scipy's cosine divides 0 by 0 and produces NaN; under the real-number
embedding's division-by-zero convention the formula yields 1.  Either way
the claimed value 0 is not produced.) -/
theorem C7_counterexample :
    compute_ranks cosineDist [[(0 : ℝ)]] [[(0 : ℝ)]] = some ([1], [[1]]) ∧
    (1 : ℝ) ≠ 0 := by
  constructor
  · have hc : cosineDist [(0 : ℝ)] [(0 : ℝ)] = 1 := by
      have h : dotProd [(0 : ℝ)] [(0 : ℝ)] = 0 := by norm_num [dotProd]
      rw [cosineDist, h, zero_div, sub_zero]
    rw [compute_ranks_eq_of_le cosineDist [[(0 : ℝ)]] [[(0 : ℝ)]] rfl le_rfl]
    simp only [cdist, List.map_cons, List.map_nil, hc]
    simp [List.range_succ, List.countP_cons, decide_eq_true_eq]
  · exact one_ne_zero

theorem chunksOf_nil {γ : Type} (n : ℕ) : chunksOf n ([] : List γ) = [] := by
  rw [chunksOf]
  simp

theorem chunksOf_zero {γ : Type} (l : List γ) : chunksOf 0 l = [] := by
  rw [chunksOf]
  simp

theorem chunksOf_cons {γ : Type} (n : ℕ) (l : List γ) (hn : n ≠ 0)
    (hl : l ≠ []) :
    chunksOf n l = l.take n :: chunksOf n (l.drop n) := by
  rw [chunksOf, dif_neg]
  push_neg
  exact ⟨hn, fun h0 => hl (List.eq_nil_of_length_eq_zero h0)⟩

theorem flatten_chunksOf_aux {γ : Type} (n : ℕ) (hn : n ≠ 0) :
    ∀ (k : ℕ) (l : List γ), l.length ≤ k → (chunksOf n l).flatten = l := by
  intro k
  induction k with
  | zero =>
    intro l hl
    have h0 : l = [] := List.eq_nil_of_length_eq_zero (Nat.le_zero.mp hl)
    subst h0
    rw [chunksOf_nil]
    rfl
  | succ k ih =>
    intro l hl
    by_cases hnil : l = []
    · subst hnil
      rw [chunksOf_nil]
      rfl
    · have hlen : l.length ≠ 0 :=
        fun h0 => hnil (List.eq_nil_of_length_eq_zero h0)
      rw [chunksOf_cons n l hn hnil, List.flatten_cons,
        ih (l.drop n) (by simp only [List.length_drop]; omega)]
      exact List.take_append_drop n l

/-- The sub-batches produced by the data loader concatenate back to the
original batch. -/
theorem flatten_chunksOf {γ : Type} (n : ℕ) (hn : n ≠ 0) (l : List γ) :
    (chunksOf n l).flatten = l :=
  flatten_chunksOf_aux n hn l.length l le_rfl

theorem takeWhile_chunksOf_aux {γ : Type} (n : ℕ) (hn : n ≠ 0) :
    ∀ (k : ℕ) (l : List γ), l.length ≤ k →
      (chunksOf n l).takeWhile (fun c => decide (n ≤ c.length)) =
        (List.range (l.length / n)).map fun i => (l.drop (i * n)).take n := by
  intro k
  induction k with
  | zero =>
    intro l hl
    have h0 : l = [] := List.eq_nil_of_length_eq_zero (Nat.le_zero.mp hl)
    subst h0
    rw [chunksOf_nil]
    simp
  | succ k ih =>
    intro l hl
    by_cases hsmall : l.length < n
    · by_cases hnil : l = []
      · subst hnil
        rw [chunksOf_nil]
        simp
      · rw [chunksOf_cons n l hn hnil, List.takeWhile_cons, if_neg,
          Nat.div_eq_of_lt hsmall]
        · simp
        · simp only [List.length_take, decide_eq_true_eq]
          rw [not_le]
          omega
    · rw [not_lt] at hsmall
      have hnil : l ≠ [] := by
        intro h0
        rw [h0] at hsmall
        simp at hsmall
        exact hn hsmall
      rw [chunksOf_cons n l hn hnil, List.takeWhile_cons, if_pos,
        ih (l.drop n) (by simp only [List.length_drop]; omega)]
      · rw [Nat.div_eq_sub_div (Nat.pos_of_ne_zero hn) hsmall,
          List.range_succ_eq_map, List.map_cons, List.map_map]
        congr 1
        · simp
        · simp only [List.length_drop]
          apply List.map_congr_left
          intro i hi
          simp only [Function.comp_apply, List.drop_drop]
          rw [Nat.succ_mul, Nat.add_comm]
      · simp only [List.length_take, decide_eq_true_eq]
        omega

/-- The batches processed by the loop of `test` (full chunks before the
first undersized one): exactly the first `len(data) / B` consecutive
chunks. -/
theorem takeWhile_chunksOf {γ : Type} (n : ℕ) (hn : n ≠ 0) (l : List γ) :
    (chunksOf n l).takeWhile (fun c => decide (n ≤ c.length)) =
      (List.range (l.length / n)).map fun i => (l.drop (i * n)).take n :=
  takeWhile_chunksOf_aux n hn l.length l le_rfl

/-- With a positive loader batch size, sub-batching and concatenating the
per-row model outputs is the per-row map over the whole batch. -/
theorem batchReps_eq {τ : Type} (tb : ℕ) (htb : tb ≠ 0) (enc : τ → List ℝ)
    (rows : List τ) : batchReps tb enc rows = rows.map enc := by
  rw [batchReps, ← List.map_flatten, flatten_chunksOf tb htb]

theorem mapM_eq_some {γ δ : Type} (f : γ → Option δ) (g : γ → δ) :
    ∀ l : List γ, (∀ b ∈ l, f b = some (g b)) → l.mapM f = some (l.map g) := by
  intro l
  induction l with
  | nil => intro _; rfl
  | cons x xs ih =>
    intro h
    rw [List.map_cons, List.mapM_cons, h x (List.mem_cons_self x xs),
      ih fun b hb => h b (List.mem_cons_of_mem x hb)]
    rfl

/-- Every one of the first `len(l) / B` consecutive chunks is full. -/
theorem length_batch {γ : Type} (B k : ℕ) (l : List γ) (hk : k < l.length / B) :
    ((l.drop (k * B)).take B).length = B := by
  rw [List.length_take, List.length_drop]
  have h1 : (k + 1) * B ≤ l.length / B * B := Nat.mul_le_mul_right B hk
  have h2 : l.length / B * B ≤ l.length := Nat.div_mul_le_self _ _
  have h3 : k * B + B ≤ l.length := by
    rw [add_mul, one_mul] at h1
    omega
  omega

/-- On a full batch, with a positive loader size and fixed-width model
outputs, the loop body succeeds and produces the per-batch mean of
reciprocal ranks from `compute_ranks` on the batch's embeddings. -/
theorem batchMRR_eq_spec {τ : Type} (cfg : Cfg) (encC encQ : τ → List ℝ)
    (H : ℕ) (htb : cfg.train_batch_size ≠ 0)
    (hC : ∀ x, (encC x).length = H) (hQ : ∀ x, (encQ x).length = H)
    (b : List (τ × τ)) (hb : b.length = cfg.test_batch_size) :
    batchMRR cfg encC encQ b =
      some (match compute_ranks cosineDist (b.map fun p => encC p.1)
          (b.map fun p => encQ p.2) with
        | some (ranks, _) =>
            (ranks.map fun r => (1 : ℝ) / r).sum / ranks.length
        | none => 0) := by
  have hmapC : batchReps cfg.train_batch_size encC (b.map Prod.fst) =
      b.map fun p => encC p.1 := by
    rw [batchReps_eq _ htb, List.map_map]
    rfl
  have hmapQ : batchReps cfg.train_batch_size encQ (b.map Prod.snd) =
      b.map fun p => encQ p.2 := by
    rw [batchReps_eq _ htb, List.map_map]
    rfl
  have hok : cdistOK (b.map fun p => encC p.1) (b.map fun p => encQ p.2)
      = true := by
    apply cdistOK_of_cols _ _ H
    · intro r hr
      rcases List.mem_map.mp hr with ⟨p, hp, rfl⟩
      exact hC p.1
    · intro r hr
      rcases List.mem_map.mp hr with ⟨p, hp, rfl⟩
      exact hQ p.2
  have hcond : (b.map fun p => encC p.1).length =
      (b.map fun p => encQ p.2).length ∧
      (b.map fun p => encQ p.2).length = cfg.test_batch_size := by
    simp [hb]
  rw [batchMRR]
  simp only [hmapC, hmapQ]
  rw [if_pos hcond, compute_ranks_eq_of_le _ _ _ hok (by simp)]

/-- C2: the dataset is split into consecutive chunks of
`cfg.run.test_batch_size` items with a smaller final chunk discarded, and
the value logged as `Test MRR:` is the arithmetic mean over the full
batches of the per-batch mean of 1/rank (ranks from `compute_ranks` on
that batch's code and query embeddings), rounded to 4 decimals — i.e.
`test` computes exactly the specification-side `specTestMRR`. -/
theorem C2_logged_value_is_mean_of_batch_means {τ : Type} (cfg : Cfg)
    (encC encQ : τ → List ℝ) (data : List (τ × τ)) (H : ℕ)
    (htb : 1 ≤ cfg.train_batch_size)
    (hC : ∀ x, (encC x).length = H) (hQ : ∀ x, (encQ x).length = H) :
    test cfg encC encQ data =
      specTestMRR cfg.test_batch_size encC encQ data := by
  by_cases hB : cfg.test_batch_size = 0
  · rw [test, specTestMRR]
    simp only [hB, chunksOf_zero, List.takeWhile_nil, Nat.div_zero,
      List.range_zero, List.map_nil, if_pos]
    rfl
  · rw [test, specTestMRR]
    rw [takeWhile_chunksOf _ hB data]
    rw [mapM_eq_some (batchMRR cfg encC encQ)
      (fun b => match compute_ranks cosineDist (b.map fun p => encC p.1)
          (b.map fun p => encQ p.2) with
        | some (ranks, _) =>
            (ranks.map fun r => (1 : ℝ) / r).sum / ranks.length
        | none => 0)
      _ ?hall]
    case hall =>
      intro b hbmem
      rcases List.mem_map.mp hbmem with ⟨k, hk, rfl⟩
      rw [List.mem_range] at hk
      exact batchMRR_eq_spec cfg encC encQ H (by omega) hC hQ _
        (length_batch cfg.test_batch_size k data hk)
    simp only [List.map_map, Function.comp_def, List.length_map,
      List.length_range]

/-- Witness for C2: one full batch of one item, identically-embedded. -/
theorem C2_witness :
    (1 ≤ (Cfg.mk 1 1).train_batch_size ∧
      (∀ x : Unit, ((fun _ : Unit => [(1 : ℝ)]) x).length = 1)) ∧
    test (Cfg.mk 1 1) (fun _ : Unit => [(1 : ℝ)]) (fun _ : Unit => [(1 : ℝ)])
        [((), ())] =
      specTestMRR (Cfg.mk 1 1).test_batch_size (fun _ : Unit => [(1 : ℝ)])
        (fun _ : Unit => [(1 : ℝ)]) [((), ())] :=
  ⟨⟨le_refl 1, fun _ => rfl⟩,
    C2_logged_value_is_mean_of_batch_means (Cfg.mk 1 1)
      (fun _ : Unit => [(1 : ℝ)]) (fun _ : Unit => [(1 : ℝ)]) [((), ())] 1
      (le_refl 1) (fun _ => rfl) (fun _ => rfl)⟩

/-- C8: if the dataset holds fewer than `cfg.run.test_batch_size` items,
no full batch completes, and the final `sum_mrr / num_batches` is a
division by zero: `test` fails with an uncaught error instead of logging
a value. -/
theorem C8_zero_batches_fails {τ : Type} (cfg : Cfg)
    (encC encQ : τ → List ℝ) (data : List (τ × τ))
    (hlt : data.length < cfg.test_batch_size) :
    test cfg encC encQ data = none := by
  have hB : cfg.test_batch_size ≠ 0 := by omega
  rw [test, takeWhile_chunksOf _ hB data, Nat.div_eq_of_lt hlt]
  simp only [List.range_zero, List.map_nil]
  rfl

/-- Witness for C8: an empty dataset with batch size 1. -/
theorem C8_witness :
    (([] : List (Unit × Unit)).length < (Cfg.mk 1 1).test_batch_size) ∧
    test (Cfg.mk 1 1) (fun _ : Unit => [(1 : ℝ)]) (fun _ : Unit => [(1 : ℝ)])
      ([] : List (Unit × Unit)) = none :=
  ⟨Nat.zero_lt_one,
    C8_zero_batches_fails (Cfg.mk 1 1) (fun _ : Unit => [(1 : ℝ)])
      (fun _ : Unit => [(1 : ℝ)]) [] Nat.zero_lt_one⟩

/-- C9: after concatenating the per-sub-batch outputs of a full batch of
`cfg.run.test_batch_size` items, the code and query representation counts
both equal `cfg.run.test_batch_size` — the loop's assertion holds and
never aborts the run on a full batch, given that the model yields exactly
one embedding row per input row. -/
theorem C9_assertion_never_fires {τ : Type} (cfg : Cfg)
    (encC encQ : τ → List ℝ) (batch : List (τ × τ))
    (htb : 1 ≤ cfg.train_batch_size)
    (hb : batch.length = cfg.test_batch_size) :
    (batchReps cfg.train_batch_size encC (batch.map Prod.fst)).length =
        cfg.test_batch_size ∧
    (batchReps cfg.train_batch_size encQ (batch.map Prod.snd)).length =
        cfg.test_batch_size := by
  rw [batchReps_eq _ (by omega) encC, batchReps_eq _ (by omega) encQ]
  simp [hb]

/-- Witness for C9: a one-item full batch with loader size 1. -/
theorem C9_witness :
    (1 ≤ (Cfg.mk 1 1).train_batch_size ∧
      ([((), ())] : List (Unit × Unit)).length = (Cfg.mk 1 1).test_batch_size) ∧
    ((batchReps (Cfg.mk 1 1).train_batch_size (fun _ : Unit => [(1 : ℝ)])
        (([((), ())] : List (Unit × Unit)).map Prod.fst)).length =
          (Cfg.mk 1 1).test_batch_size ∧
      (batchReps (Cfg.mk 1 1).train_batch_size (fun _ : Unit => [(1 : ℝ)])
        (([((), ())] : List (Unit × Unit)).map Prod.snd)).length =
          (Cfg.mk 1 1).test_batch_size) :=
  ⟨⟨le_refl 1, rfl⟩,
    C9_assertion_never_fires (Cfg.mk 1 1) (fun _ : Unit => [(1 : ℝ)])
      (fun _ : Unit => [(1 : ℝ)]) [((), ())] (le_refl 1) rfl⟩

/-- Normal form of `compute_ranksF` in the `len(src) ≤ len(tgt)` regime,
analogous to `compute_ranks_eq_of_le`. -/
theorem compute_ranksF_eq_of_le (d : List ℝ → List ℝ → Option ℝ)
    (src tgt : List (List ℝ))
    (hok : cdistOK src tgt = true) (hMN : src.length ≤ tgt.length) :
    compute_ranksF d src tgt = some
      ((List.range src.length).map fun i =>
        ((cdist d src tgt).getD i []).countP fun x =>
          fle x (((cdist d src tgt).getD i []).getD i none),
       cdist d src tgt) := by
  have hK : min src.length tgt.length = src.length := min_eq_left hMN
  rw [compute_ranksF]
  simp only [hok, if_true, hK, true_or, eq_self_iff_true, or_true, if_pos]
  congr 2
  apply List.map_congr_left
  intro i hi
  rw [List.mem_range] at hi
  by_cases h1 : src.length = 1
  · have hi0 : i = 0 := by omega
    subst hi0
    simp [h1]
  · simp [h1]

/-- On rows with a nonzero coordinate the float cosine metric is the real
number `cosineDist`, not NaN. -/
theorem cosineDistF_eq_some (u v : List ℝ) (hu : ∃ x ∈ u, x ≠ 0)
    (hv : ∃ x ∈ v, x ≠ 0) :
    cosineDistF u v = some (cosineDist u v) := by
  rw [cosineDistF, if_neg]
  push_neg
  exact ⟨ne_of_gt (dotProd_self_pos u hu), ne_of_gt (dotProd_self_pos v hv)⟩

/-- Counterexample to C3 as stated: under the default cosine metric with
its IEEE NaN semantics, the equal-shape 1×1 input src = tgt = [[0]]
(N = 1) has a zero-norm row, its cosine self-distance is NaN (0/0),
`NaN <= NaN` is false, and the returned rank is 0 — outside the claimed
interval [1, 1].  Precisely the reflexivity argument
`distances[i][i] <= distances[i][i]` the claim invokes is what NaN
violates. -/
theorem C3_counterexample :
    compute_ranksF cosineDistF [[(0 : ℝ)]] [[(0 : ℝ)]] =
      some ([0], [[none]]) ∧ (0 : ℕ) < 1 := by
  constructor
  · have hnan : cosineDistF [(0 : ℝ)] [(0 : ℝ)] = none := by
      rw [cosineDistF, if_pos]
      left
      norm_num [dotProd]
    rw [compute_ranksF_eq_of_le cosineDistF [[(0 : ℝ)]] [[(0 : ℝ)]] rfl
      le_rfl]
    simp only [cdist, List.map_cons, List.map_nil, hnan]
    simp [List.range_succ, List.countP_cons, fle]
  · exact Nat.zero_lt_one

/-- C3 (amended): for equal-shape N×D matrices with N ≥ 1, every rank
entry returned by `compute_ranks` under the default cosine metric lies in
[1, N], provided every row of src and of tgt has a nonzero coordinate —
then no pairwise cosine distance is NaN and the diagonal entry satisfies
the reflexive comparison `distances[i][i] <= distances[i][i]`, which
guarantees the minimum 1.  Without that proviso the bound fails: a
zero-norm row makes its diagonal entry NaN and its rank 0.  Stated over
the IEEE-comparison embedding `compute_ranksF`. -/
theorem C3_amended_ranks_between_one_and_N (src tgt : List (List ℝ))
    (N D : ℕ) (hN : 1 ≤ N) (hsl : src.length = N) (htl : tgt.length = N)
    (hsc : ∀ r ∈ src, r.length = D) (htc : ∀ r ∈ tgt, r.length = D)
    (hsz : ∀ r ∈ src, ∃ x ∈ r, x ≠ 0) (htz : ∀ r ∈ tgt, ∃ x ∈ r, x ≠ 0) :
    ∃ ranks distances,
      compute_ranksF cosineDistF src tgt = some (ranks, distances) ∧
      ranks.length = N ∧
      (∀ i, i < N → 1 ≤ ranks.getD i 0 ∧ ranks.getD i 0 ≤ N) := by
  have hok := cdistOK_of_cols src tgt D hsc htc
  have hle : src.length ≤ tgt.length := by omega
  refine ⟨_, _, compute_ranksF_eq_of_le cosineDistF src tgt hok hle,
    by simp [hsl], ?_⟩
  intro i hi
  have his : i < src.length := by omega
  have hit : i < tgt.length := by omega
  rw [List.getD_eq_getElem _ _ (by simpa using his), List.getElem_map,
    List.getElem_range]
  have hrow : (cdist cosineDistF src tgt).getD i [] =
      tgt.map fun v => cosineDistF (src.getD i []) v :=
    cdist_row cosineDistF src tgt i his
  have hlen : ((cdist cosineDistF src tgt).getD i []).length = tgt.length := by
    rw [hrow, List.length_map]
  have hc : ((cdist cosineDistF src tgt).getD i []).getD i none =
      some (cosineDist (src.getD i []) (tgt.getD i [])) := by
    rw [hrow, List.getD_eq_getElem _ _ (by simpa using hit),
      List.getElem_map, List.getD_eq_getElem _ _ hit]
    refine cosineDistF_eq_some _ _ ?_ ?_
    · refine hsz _ ?_
      rw [List.getD_eq_getElem _ _ his]
      exact List.getElem_mem his
    · exact htz _ (List.getElem_mem hit)
  constructor
  · have hmem : ((cdist cosineDistF src tgt).getD i []).getD i none ∈
        (cdist cosineDistF src tgt).getD i [] := by
      rw [List.getD_eq_getElem _ _ (by omega : i <
        ((cdist cosineDistF src tgt).getD i []).length)]
      exact List.getElem_mem _
    have hflec : fle (((cdist cosineDistF src tgt).getD i []).getD i none)
        (((cdist cosineDistF src tgt).getD i []).getD i none) = true := by
      rw [hc]
      simp [fle]
    exact List.countP_pos_iff.mpr ⟨_, hmem, hflec⟩
  · calc (((cdist cosineDistF src tgt).getD i []).countP fun x =>
          fle x (((cdist cosineDistF src tgt).getD i []).getD i none))
        ≤ ((cdist cosineDistF src tgt).getD i []).length :=
          List.countP_le_length _
    _ = N := by rw [hlen, htl]

/-- Witness for the amended C3: 1×1 matrices with a nonzero row. -/
theorem C3_witness :
    ((1 : ℕ) ≤ 1 ∧
      (∀ r ∈ ([[(1 : ℝ)]] : List (List ℝ)), ∃ x ∈ r, x ≠ 0)) ∧
    (∃ ranks distances,
      compute_ranksF cosineDistF [[(1 : ℝ)]] [[(1 : ℝ)]] =
        some (ranks, distances) ∧
      ranks.length = 1 ∧
      (∀ i, i < 1 → 1 ≤ ranks.getD i 0 ∧ ranks.getD i 0 ≤ 1)) :=
  ⟨⟨le_refl 1, by norm_num⟩,
    C3_amended_ranks_between_one_and_N [[(1 : ℝ)]] [[(1 : ℝ)]] 1 1
      (le_refl 1) rfl rfl (by norm_num) (by norm_num) (by norm_num)
      (by norm_num)⟩

end Codesearch
